import Mathlib

/-!
Verification of the symbolic-expression engine (`expression.hpp` /
`expression.cpp`).

The engine represents mathematical expressions as immutable trees
(`Expression<T>::Node`), generic over the numeric scalar type `T`
(instantiated at `double` and `complex<double>`).  We embed:

* the node model as the inductive type `Expression.Node T`, one constructor
  per `Node::Type` tag, with exactly the children each kind carries;
* the scalar type as an abstract carrier `T` together with a record
  `Expression.ScalarOps T` bundling the native scalar operations the C++
  template requires of `T` (`+ - * /`, `std::pow/sin/cos/exp/log`, unary
  minus, the literals `T(0) T(1) T(2)` and stream rendering);
* `evaluate`, `derivative`, `substitute`, `toString`, `isConstant` and
  `isVariable` as structurally recursive functions mirroring the `switch`
  of the corresponding C++ member function case by case; C++ exceptions
  become `Except String` results, and `std::map` bindings become a lookup
  function `String → Option T`;
* the `shared_ptr` allocation behaviour of `substitute` (which the
  structural-sharing claim is about) as a separate heap-level function
  `substituteH` over an explicit arena of `Cell`s addressed by `Nat`,
  where `make_shared` is modelled by appending a fresh cell.
-/

namespace Expression

variable {T : Type}

/-- Embedding of `Expression<T>::Node`: a tagged tree node.  Each
constructor corresponds to one `Node::Type` enumerator, carrying the scalar
payload (`CONSTANT`), the identifier (`VARIABLE`), or the child subtrees
(both children for the five binary kinds, the single `left` child for the
five unary kinds). -/
inductive Node (T : Type) where
  | const (value : T)
  | var (name : String)
  | add (left right : Node T)
  | sub (left right : Node T)
  | mul (left right : Node T)
  | div (left right : Node T)
  | pow (left right : Node T)
  | sin (arg : Node T)
  | cos (arg : Node T)
  | exp (arg : Node T)
  | log (arg : Node T)
  | neg (arg : Node T)
  deriving DecidableEq

/-- The scalar capabilities the C++ template `Expression<T>` requires of its
numeric parameter `T`: the four arithmetic operators, `std::pow`, the four
transcendental functions, unary minus, the literals `T(0)`, `T(1)`, `T(2)`
used by the differentiator, and the stream rendering `ss << value` used by
`toString`. -/
structure ScalarOps (T : Type) where
  add : T → T → T
  sub : T → T → T
  mul : T → T → T
  div : T → T → T
  pow : T → T → T
  sin : T → T
  cos : T → T
  exp : T → T
  log : T → T
  neg : T → T
  zero : T
  one : T
  two : T
  tostr : T → String

/-- Embedding of the default constructor `Expression()`: a `CONSTANT` node
holding `T(0)`. -/
def defaultExpr (ops : ScalarOps T) : Node T :=
  Node.const ops.zero

/-- Embedding of `Expression<T>::evaluate` (expression.cpp, the `switch` on
`root->type`).  Variable bindings (`std::map<string,T>`) are modelled as a
lookup function; the `throw runtime_error("Undefined variable: " + ...)` on
a missing binding becomes an `Except.error` carrying the same message, and
operand evaluation order (left before right, an exception propagating
before the right operand is touched) is preserved by the nested matches. -/
def evaluate (ops : ScalarOps T) (env : String → Option T) : Node T → Except String T
  | .const v => .ok v
  | .var w =>
      match env w with
      | some x => .ok x
      | none => .error ("Undefined variable: " ++ w)
  | .add l r =>
      match evaluate ops env l with
      | .error e => .error e
      | .ok a =>
          match evaluate ops env r with
          | .error e => .error e
          | .ok b => .ok (ops.add a b)
  | .sub l r =>
      match evaluate ops env l with
      | .error e => .error e
      | .ok a =>
          match evaluate ops env r with
          | .error e => .error e
          | .ok b => .ok (ops.sub a b)
  | .mul l r =>
      match evaluate ops env l with
      | .error e => .error e
      | .ok a =>
          match evaluate ops env r with
          | .error e => .error e
          | .ok b => .ok (ops.mul a b)
  | .div l r =>
      match evaluate ops env l with
      | .error e => .error e
      | .ok a =>
          match evaluate ops env r with
          | .error e => .error e
          | .ok b => .ok (ops.div a b)
  | .pow l r =>
      match evaluate ops env l with
      | .error e => .error e
      | .ok a =>
          match evaluate ops env r with
          | .error e => .error e
          | .ok b => .ok (ops.pow a b)
  | .sin u =>
      match evaluate ops env u with
      | .error e => .error e
      | .ok a => .ok (ops.sin a)
  | .cos u =>
      match evaluate ops env u with
      | .error e => .error e
      | .ok a => .ok (ops.cos a)
  | .exp u =>
      match evaluate ops env u with
      | .error e => .error e
      | .ok a => .ok (ops.exp a)
  | .log u =>
      match evaluate ops env u with
      | .error e => .error e
      | .ok a => .ok (ops.log a)
  | .neg u =>
      match evaluate ops env u with
      | .error e => .error e
      | .ok a => .ok (ops.neg a)

/-- Embedding of `Expression<T>::isConstant`: `CONSTANT` is constant,
`VARIABLE` is not, a binary node is constant iff both children are, a unary
node iff its child is. -/
def isConstant : Node T → Bool
  | .const _ => true
  | .var _ => false
  | .add l r | .sub l r | .mul l r | .div l r | .pow l r =>
      isConstant l && isConstant r
  | .sin u | .cos u | .exp u | .log u | .neg u => isConstant u

/-- Embedding of the nullary overload `Expression<T>::isVariable`. -/
def isVariable : Node T → Bool
  | .var _ => true
  | _ => false

/-- Embedding of `Expression<T>::isVariable(const string&)`. -/
def isVariableNamed (v : String) : Node T → Bool
  | .var w => w == v
  | _ => false

/-- Embedding of the recursive `Expression<T>::derivative` helper (the
`switch` in expression.cpp).  Each case builds exactly the node structure
the C++ code allocates.  In the `POWER` case the code first tests
`isConstant` on the exponent, then extracts its numeric value by evaluating
it with the default empty binding map (an exception from that evaluation
would propagate, hence the intermediate match), builds
`(n * left^(n-1)) * d(left)`, and otherwise throws
`runtime_error("Derivative of non-constant exponents not implemented")`. -/
def derivative (ops : ScalarOps T) (t : String) : Node T → Except String (Node T)
  | .const _ => .ok (.const ops.zero)
  | .var w => .ok (.const (if w == t then ops.one else ops.zero))
  | .add l r =>
      match derivative ops t l with
      | .error e => .error e
      | .ok dl =>
          match derivative ops t r with
          | .error e => .error e
          | .ok dr => .ok (.add dl dr)
  | .sub l r =>
      match derivative ops t l with
      | .error e => .error e
      | .ok dl =>
          match derivative ops t r with
          | .error e => .error e
          | .ok dr => .ok (.sub dl dr)
  | .mul l r =>
      match derivative ops t l with
      | .error e => .error e
      | .ok dl =>
          match derivative ops t r with
          | .error e => .error e
          | .ok dr => .ok (.add (.mul dl r) (.mul l dr))
  | .div l r =>
      match derivative ops t l with
      | .error e => .error e
      | .ok dl =>
          match derivative ops t r with
          | .error e => .error e
          | .ok dr =>
              .ok (.div (.sub (.mul dl r) (.mul l dr))
                        (.pow r (.const ops.two)))
  | .pow l r =>
      if isConstant r then
        match evaluate ops (fun _ => none) r with
        | .error e => .error e
        | .ok n =>
            match derivative ops t l with
            | .error e => .error e
            | .ok dl =>
                .ok (.mul (.mul (.const n) (.pow l (.const (ops.sub n ops.one)))) dl)
      else .error "Derivative of non-constant exponents not implemented"
  | .sin u =>
      match derivative ops t u with
      | .error e => .error e
      | .ok du => .ok (.mul (.cos u) du)
  | .cos u =>
      match derivative ops t u with
      | .error e => .error e
      | .ok du => .ok (.mul (.neg (.sin u)) du)
  | .exp u =>
      match derivative ops t u with
      | .error e => .error e
      | .ok du => .ok (.mul (.exp u) du)
  | .log u =>
      match derivative ops t u with
      | .error e => .error e
      | .ok du => .ok (.div du u)
  | .neg u =>
      match derivative ops t u with
      | .error e => .error e
      | .ok du => .ok (.neg du)

/-- Tree-level embedding of `Expression<T>::substitute`: a `VARIABLE` leaf
matching the substituted name becomes the replacement tree itself; any
other leaf is returned unchanged; an interior node is rebuilt from the
recursively substituted children (the C++ null checks on `left`/`right`
select exactly the children the kind has).  Pointer-level sharing, which
this tree view cannot express, is modelled separately by `substituteH`. -/
def substitute (v : String) (repl : Node T) : Node T → Node T
  | .const c => .const c
  | .var w => if w == v then repl else .var w
  | .add l r => .add (substitute v repl l) (substitute v repl r)
  | .sub l r => .sub (substitute v repl l) (substitute v repl r)
  | .mul l r => .mul (substitute v repl l) (substitute v repl r)
  | .div l r => .div (substitute v repl l) (substitute v repl r)
  | .pow l r => .pow (substitute v repl l) (substitute v repl r)
  | .sin u => .sin (substitute v repl u)
  | .cos u => .cos (substitute v repl u)
  | .exp u => .exp (substitute v repl u)
  | .log u => .log (substitute v repl u)
  | .neg u => .neg (substitute v repl u)

/-- Embedding of `Expression<T>::toString`: the recursive structural print.
The stream rendering `ss << root->value` of a constant is `ops.tostr`. -/
def toString (ops : ScalarOps T) : Node T → String
  | .const v => ops.tostr v
  | .var w => w
  | .add l r => "(" ++ toString ops l ++ " + " ++ toString ops r ++ ")"
  | .sub l r => "(" ++ toString ops l ++ " - " ++ toString ops r ++ ")"
  | .mul l r => "(" ++ toString ops l ++ " * " ++ toString ops r ++ ")"
  | .div l r => "(" ++ toString ops l ++ " / " ++ toString ops r ++ ")"
  | .pow l r => "pow(" ++ toString ops l ++ ", " ++ toString ops r ++ ")"
  | .sin u => "sin(" ++ toString ops u ++ ")"
  | .cos u => "cos(" ++ toString ops u ++ ")"
  | .exp u => "exp(" ++ toString ops u ++ ")"
  | .log u => "log(" ++ toString ops u ++ ")"
  | .neg u => "-(" ++ toString ops u ++ ")"

/-- Specification-side measurement: does the tree contain any `VARIABLE`
leaf at all?  (The spec calls a subtree "constant" exactly when it contains
no variable leaf; `isConstant_eq_not_containsVar` relates the two.) -/
def containsVar : Node T → Bool
  | .const _ => false
  | .var _ => true
  | .add l r | .sub l r | .mul l r | .div l r | .pow l r =>
      containsVar l || containsVar r
  | .sin u | .cos u | .exp u | .log u | .neg u => containsVar u

/-- Specification-side measurement: does the tree contain a `VARIABLE` leaf
whose name is absent from the bindings `env`? -/
def hasUnbound (env : String → Option T) : Node T → Bool
  | .const _ => false
  | .var w => (env w).isNone
  | .add l r | .sub l r | .mul l r | .div l r | .pow l r =>
      hasUnbound env l || hasUnbound env r
  | .sin u | .cos u | .exp u | .log u | .neg u => hasUnbound env u

/-- Specification-side measurement: does the tree contain a `POWER` node
whose exponent subtree is not constant, i.e. contains a variable leaf?
These are exactly the nodes `derivative` refuses to differentiate. -/
def hasBadPower : Node T → Bool
  | .const _ => false
  | .var _ => false
  | .pow l r => containsVar r || hasBadPower l || hasBadPower r
  | .add l r | .sub l r | .mul l r | .div l r =>
      hasBadPower l || hasBadPower r
  | .sin u | .cos u | .exp u | .log u | .neg u => hasBadPower u

/-- Specification-side measurement: the number of `VARIABLE` leaves with
name `v` in the tree. -/
def countVar (v : String) : Node T → Nat
  | .const _ => 0
  | .var w => if w == v then 1 else 0
  | .add l r | .sub l r | .mul l r | .div l r | .pow l r =>
      countVar v l + countVar v r
  | .sin u | .cos u | .exp u | .log u | .neg u => countVar v u

/-- Specification-side predicate: a polynomial tree in the sense of claim
C1, built only from constants, variables, `+`, `-` and `*`. -/
def isPoly : Node T → Bool
  | .const _ => true
  | .var _ => true
  | .add l r | .sub l r | .mul l r => isPoly l && isPoly r
  | _ => false

/-- A concrete scalar instance for witnesses: the integers, with junk
transcendental functions (the witness claims never depend on them) and the
decimal rendering as `tostr`. -/
def intOps : ScalarOps Int where
  add := fun a b => a + b
  sub := fun a b => a - b
  mul := fun a b => a * b
  div := fun a b => a / b
  pow := fun a b => a ^ b.toNat
  sin := fun _ => 0
  cos := fun _ => 0
  exp := fun _ => 0
  log := fun _ => 0
  neg := fun a => -a
  zero := 0
  one := 1
  two := 2
  tostr := fun n => Int.repr n

/-- Node kind tags, mirroring the `Node::Type` enumeration, used by the
heap-level model of `substitute`. -/
inductive NType where
  | CONSTANT
  | VARIABLE
  | ADD
  | SUBTRACT
  | MULTIPLY
  | DIVIDE
  | POWER
  | SIN
  | COS
  | EXP
  | LOG
  | NEGATE
  deriving DecidableEq

/-- Heap-level picture of one `Node` object.  `left`/`right` model the
`shared_ptr` child fields as optional addresses into an arena of cells;
`value` is `some` only when the `Node(Type, T)` constructor set it (the
`Node(Type, l, r)` constructor used by `substitute` leaves the payload
fields at their defaults, modelled as `none` and `""`). -/
structure Cell (T : Type) where
  ty : NType
  value : Option T
  vname : String
  left : Option Nat
  right : Option Nat
  deriving DecidableEq

/-- One child step of the heap-level `substitute`: the C++
`root->left ? Expression(root->left).substitute(...).root : nullptr`.
A null child stays null and leaves the arena alone; a non-null child is
substituted recursively (via `recur`, the one-level-less `substituteH`),
yielding the possibly grown arena and the non-null result address. -/
def substChild (recur : List (Cell T) → Nat → Option (List (Cell T) × Nat))
    (h : List (Cell T)) : Option Nat → Option (List (Cell T) × Option Nat)
  | none => some (h, none)
  | some l =>
      match recur h l with
      | none => none
      | some (h1, a) => some (h1, some a)

/-- Heap-level embedding of `Expression<T>::substitute`, keeping the
`shared_ptr` identity that the tree-level `substitute` erases.  The arena
is a list of cells addressed by position; `make_shared` is modelled by
appending a fresh cell (whose address is the old arena length), while
`return value` (matching variable leaf) and `return *this` (the
`!newLeft && !newRight` case) return an existing address with the arena
untouched.  `fuel` bounds the recursion depth only: for any tree-shaped
arena enough fuel makes the result `some`. -/
def substituteH (v : String) (replAddr : Nat) :
    Nat → List (Cell T) → Nat → Option (List (Cell T) × Nat)
  | 0, _, _ => none
  | fuel+1, h, addr =>
    match h.get? addr with
    | none => none
    | some c =>
      if c.ty = NType.VARIABLE ∧ c.vname = v then
        some (h, replAddr)
      else
        match substChild (substituteH v replAddr fuel) h c.left with
        | none => none
        | some (h1, nl) =>
            match substChild (substituteH v replAddr fuel) h1 c.right with
            | none => none
            | some (h2, nr) =>
                if nl = none ∧ nr = none then
                  some (h2, addr)
                else
                  some (h2 ++ [⟨c.ty, none, "",
                                nl.orElse (fun _ => c.left),
                                nr.orElse (fun _ => c.right)⟩],
                        h2.length)

/-- The four-cell arena of the structural-sharing counterexample: the tree
`Add(Constant 1, Constant 2)` (cells 0, 1 and 2) plus the replacement
expression `Constant 5` (cell 3). -/
def shareHeap : List (Cell Int) :=
  [⟨NType.CONSTANT, some 1, "", none, none⟩,
   ⟨NType.CONSTANT, some 2, "", none, none⟩,
   ⟨NType.ADD, none, "", some 0, some 1⟩,
   ⟨NType.CONSTANT, some 5, "", none, none⟩]

/-! Helper lemmas. -/

/-- The code's `isConstant` test agrees with the spec's notion of a
constant subtree: one containing no variable leaf. -/
theorem isConstant_eq_not_containsVar (n : Node T) :
    isConstant n = !containsVar n := by
  induction n <;> simp_all [isConstant, containsVar]

/-- A subtree with no variable leaf has no unbound variable under any
bindings. -/
theorem hasUnbound_of_containsVar_false (env : String → Option T) (n : Node T)
    (h : containsVar n = false) : hasUnbound env n = false := by
  induction n <;> simp_all [containsVar, hasUnbound]

/-- A subtree with no variable leaf contains no `POWER` node with a
non-constant exponent. -/
theorem hasBadPower_of_containsVar_false (n : Node T)
    (h : containsVar n = false) : hasBadPower n = false := by
  induction n <;> simp_all [containsVar, hasBadPower]

/-- A polynomial tree (constants, variables, `+`, `-`, `*`) contains no
`POWER` node at all, in particular none with a non-constant exponent. -/
theorem hasBadPower_of_isPoly (n : Node T)
    (h : isPoly n = true) : hasBadPower n = false := by
  induction n <;> simp_all [isPoly, hasBadPower, containsVar]

/-- Evaluation succeeds when no variable leaf is unbound. -/
theorem eval_ok_of_not_unbound (ops : ScalarOps T) (env : String → Option T) :
    ∀ n : Node T, hasUnbound env n = false → ∃ x, evaluate ops env n = .ok x := by
  intro n
  induction n with
  | const v => exact fun _ => ⟨v, rfl⟩
  | var w =>
      intro hu
      cases hx : env w with
      | none => simp [hasUnbound, hx] at hu
      | some x => exact ⟨x, by simp [evaluate, hx]⟩
  | add l r ihl ihr =>
      intro hu
      simp [hasUnbound] at hu
      obtain ⟨a, ha⟩ := ihl hu.1
      obtain ⟨b, hb⟩ := ihr hu.2
      exact ⟨ops.add a b, by simp [evaluate, ha, hb]⟩
  | sub l r ihl ihr =>
      intro hu
      simp [hasUnbound] at hu
      obtain ⟨a, ha⟩ := ihl hu.1
      obtain ⟨b, hb⟩ := ihr hu.2
      exact ⟨ops.sub a b, by simp [evaluate, ha, hb]⟩
  | mul l r ihl ihr =>
      intro hu
      simp [hasUnbound] at hu
      obtain ⟨a, ha⟩ := ihl hu.1
      obtain ⟨b, hb⟩ := ihr hu.2
      exact ⟨ops.mul a b, by simp [evaluate, ha, hb]⟩
  | div l r ihl ihr =>
      intro hu
      simp [hasUnbound] at hu
      obtain ⟨a, ha⟩ := ihl hu.1
      obtain ⟨b, hb⟩ := ihr hu.2
      exact ⟨ops.div a b, by simp [evaluate, ha, hb]⟩
  | pow l r ihl ihr =>
      intro hu
      simp [hasUnbound] at hu
      obtain ⟨a, ha⟩ := ihl hu.1
      obtain ⟨b, hb⟩ := ihr hu.2
      exact ⟨ops.pow a b, by simp [evaluate, ha, hb]⟩
  | sin u ih =>
      intro hu
      simp [hasUnbound] at hu
      obtain ⟨a, ha⟩ := ih hu
      exact ⟨ops.sin a, by simp [evaluate, ha]⟩
  | cos u ih =>
      intro hu
      simp [hasUnbound] at hu
      obtain ⟨a, ha⟩ := ih hu
      exact ⟨ops.cos a, by simp [evaluate, ha]⟩
  | exp u ih =>
      intro hu
      simp [hasUnbound] at hu
      obtain ⟨a, ha⟩ := ih hu
      exact ⟨ops.exp a, by simp [evaluate, ha]⟩
  | log u ih =>
      intro hu
      simp [hasUnbound] at hu
      obtain ⟨a, ha⟩ := ih hu
      exact ⟨ops.log a, by simp [evaluate, ha]⟩
  | neg u ih =>
      intro hu
      simp [hasUnbound] at hu
      obtain ⟨a, ha⟩ := ih hu
      exact ⟨ops.neg a, by simp [evaluate, ha]⟩

/-- Evaluation of a tree with an unbound variable leaf fails with the
undefined-variable error naming some unbound variable of the tree. -/
theorem eval_err_of_unbound (ops : ScalarOps T) (env : String → Option T) :
    ∀ n : Node T, hasUnbound env n = true →
      ∃ w, env w = none ∧
        evaluate ops env n = .error ("Undefined variable: " ++ w) := by
  intro n
  induction n with
  | const v => intro hu; simp [hasUnbound] at hu
  | var w =>
      intro hu
      cases hx : env w with
      | none => exact ⟨w, hx, by simp [evaluate, hx]⟩
      | some x => simp [hasUnbound, hx] at hu
  | add l r ihl ihr =>
      intro hu
      by_cases h1 : hasUnbound env l = true
      · obtain ⟨w, hw, he⟩ := ihl h1
        exact ⟨w, hw, by simp [evaluate, he]⟩
      · have h1f : hasUnbound env l = false := by simpa using h1
        simp [hasUnbound, h1f] at hu
        obtain ⟨a, ha⟩ := eval_ok_of_not_unbound ops env l h1f
        obtain ⟨w, hw, he⟩ := ihr hu
        exact ⟨w, hw, by simp [evaluate, ha, he]⟩
  | sub l r ihl ihr =>
      intro hu
      by_cases h1 : hasUnbound env l = true
      · obtain ⟨w, hw, he⟩ := ihl h1
        exact ⟨w, hw, by simp [evaluate, he]⟩
      · have h1f : hasUnbound env l = false := by simpa using h1
        simp [hasUnbound, h1f] at hu
        obtain ⟨a, ha⟩ := eval_ok_of_not_unbound ops env l h1f
        obtain ⟨w, hw, he⟩ := ihr hu
        exact ⟨w, hw, by simp [evaluate, ha, he]⟩
  | mul l r ihl ihr =>
      intro hu
      by_cases h1 : hasUnbound env l = true
      · obtain ⟨w, hw, he⟩ := ihl h1
        exact ⟨w, hw, by simp [evaluate, he]⟩
      · have h1f : hasUnbound env l = false := by simpa using h1
        simp [hasUnbound, h1f] at hu
        obtain ⟨a, ha⟩ := eval_ok_of_not_unbound ops env l h1f
        obtain ⟨w, hw, he⟩ := ihr hu
        exact ⟨w, hw, by simp [evaluate, ha, he]⟩
  | div l r ihl ihr =>
      intro hu
      by_cases h1 : hasUnbound env l = true
      · obtain ⟨w, hw, he⟩ := ihl h1
        exact ⟨w, hw, by simp [evaluate, he]⟩
      · have h1f : hasUnbound env l = false := by simpa using h1
        simp [hasUnbound, h1f] at hu
        obtain ⟨a, ha⟩ := eval_ok_of_not_unbound ops env l h1f
        obtain ⟨w, hw, he⟩ := ihr hu
        exact ⟨w, hw, by simp [evaluate, ha, he]⟩
  | pow l r ihl ihr =>
      intro hu
      by_cases h1 : hasUnbound env l = true
      · obtain ⟨w, hw, he⟩ := ihl h1
        exact ⟨w, hw, by simp [evaluate, he]⟩
      · have h1f : hasUnbound env l = false := by simpa using h1
        simp [hasUnbound, h1f] at hu
        obtain ⟨a, ha⟩ := eval_ok_of_not_unbound ops env l h1f
        obtain ⟨w, hw, he⟩ := ihr hu
        exact ⟨w, hw, by simp [evaluate, ha, he]⟩
  | sin u ih =>
      intro hu
      simp [hasUnbound] at hu
      obtain ⟨w, hw, he⟩ := ih hu
      exact ⟨w, hw, by simp [evaluate, he]⟩
  | cos u ih =>
      intro hu
      simp [hasUnbound] at hu
      obtain ⟨w, hw, he⟩ := ih hu
      exact ⟨w, hw, by simp [evaluate, he]⟩
  | exp u ih =>
      intro hu
      simp [hasUnbound] at hu
      obtain ⟨w, hw, he⟩ := ih hu
      exact ⟨w, hw, by simp [evaluate, he]⟩
  | log u ih =>
      intro hu
      simp [hasUnbound] at hu
      obtain ⟨w, hw, he⟩ := ih hu
      exact ⟨w, hw, by simp [evaluate, he]⟩
  | neg u ih =>
      intro hu
      simp [hasUnbound] at hu
      obtain ⟨w, hw, he⟩ := ih hu
      exact ⟨w, hw, by simp [evaluate, he]⟩

/-- Evaluation of a tree with no variable leaf does not look at the
bindings. -/
theorem eval_env_irrelevant (ops : ScalarOps T) (env env2 : String → Option T) :
    ∀ n : Node T, containsVar n = false →
      evaluate ops env n = evaluate ops env2 n := by
  intro n
  induction n with
  | const v => intro _; rfl
  | var w => intro hc; simp [containsVar] at hc
  | add l r ihl ihr =>
      intro hc
      simp [containsVar] at hc
      simp [evaluate, ihl hc.1, ihr hc.2]
  | sub l r ihl ihr =>
      intro hc
      simp [containsVar] at hc
      simp [evaluate, ihl hc.1, ihr hc.2]
  | mul l r ihl ihr =>
      intro hc
      simp [containsVar] at hc
      simp [evaluate, ihl hc.1, ihr hc.2]
  | div l r ihl ihr =>
      intro hc
      simp [containsVar] at hc
      simp [evaluate, ihl hc.1, ihr hc.2]
  | pow l r ihl ihr =>
      intro hc
      simp [containsVar] at hc
      simp [evaluate, ihl hc.1, ihr hc.2]
  | sin u ih => intro hc; simp [containsVar] at hc; simp [evaluate, ih hc]
  | cos u ih => intro hc; simp [containsVar] at hc; simp [evaluate, ih hc]
  | exp u ih => intro hc; simp [containsVar] at hc; simp [evaluate, ih hc]
  | log u ih => intro hc; simp [containsVar] at hc; simp [evaluate, ih hc]
  | neg u ih => intro hc; simp [containsVar] at hc; simp [evaluate, ih hc]

/-- Differentiation succeeds on every tree with no bad `POWER` node, and
its result again has no bad `POWER` node. -/
theorem derivative_ok_of_hasBadPower_false (ops : ScalarOps T) (t : String) :
    ∀ n : Node T, hasBadPower n = false →
      ∃ d, derivative ops t n = .ok d ∧ hasBadPower d = false := by
  intro n
  induction n with
  | const v => exact fun _ => ⟨.const ops.zero, rfl, rfl⟩
  | var w => exact fun _ => ⟨.const (if w == t then ops.one else ops.zero), rfl, rfl⟩
  | add l r ihl ihr =>
      intro hb
      simp [hasBadPower] at hb
      obtain ⟨dl, hdl, hbl⟩ := ihl hb.1
      obtain ⟨dr, hdr, hbr⟩ := ihr hb.2
      exact ⟨.add dl dr, by simp [derivative, hdl, hdr],
             by simp [hasBadPower, hbl, hbr]⟩
  | sub l r ihl ihr =>
      intro hb
      simp [hasBadPower] at hb
      obtain ⟨dl, hdl, hbl⟩ := ihl hb.1
      obtain ⟨dr, hdr, hbr⟩ := ihr hb.2
      exact ⟨.sub dl dr, by simp [derivative, hdl, hdr],
             by simp [hasBadPower, hbl, hbr]⟩
  | mul l r ihl ihr =>
      intro hb
      simp [hasBadPower] at hb
      obtain ⟨dl, hdl, hbl⟩ := ihl hb.1
      obtain ⟨dr, hdr, hbr⟩ := ihr hb.2
      exact ⟨.add (.mul dl r) (.mul l dr), by simp [derivative, hdl, hdr],
             by simp [hasBadPower, hbl, hbr, hb.1, hb.2]⟩
  | div l r ihl ihr =>
      intro hb
      simp [hasBadPower] at hb
      obtain ⟨dl, hdl, hbl⟩ := ihl hb.1
      obtain ⟨dr, hdr, hbr⟩ := ihr hb.2
      exact ⟨.div (.sub (.mul dl r) (.mul l dr)) (.pow r (.const ops.two)),
             by simp [derivative, hdl, hdr],
             by simp [hasBadPower, containsVar, hbl, hbr, hb.1, hb.2]⟩
  | pow l r ihl ihr =>
      intro hb
      simp [hasBadPower] at hb
      obtain ⟨⟨hcv, hbl0⟩, hbr0⟩ := hb
      have hc : isConstant r = true := by
        rw [isConstant_eq_not_containsVar, hcv]; rfl
      obtain ⟨x, hx⟩ := eval_ok_of_not_unbound ops (fun _ => none) r
        (hasUnbound_of_containsVar_false _ r hcv)
      obtain ⟨dl, hdl, hbl⟩ := ihl hbl0
      exact ⟨.mul (.mul (.const x) (.pow l (.const (ops.sub x ops.one)))) dl,
             by simp [derivative, hc, hx, hdl],
             by simp [hasBadPower, containsVar, hbl, hbl0]⟩
  | sin u ih =>
      intro hb
      simp [hasBadPower] at hb
      obtain ⟨du, hdu, hbu⟩ := ih hb
      exact ⟨.mul (.cos u) du, by simp [derivative, hdu],
             by simp [hasBadPower, hbu, hb]⟩
  | cos u ih =>
      intro hb
      simp [hasBadPower] at hb
      obtain ⟨du, hdu, hbu⟩ := ih hb
      exact ⟨.mul (.neg (.sin u)) du, by simp [derivative, hdu],
             by simp [hasBadPower, hbu, hb]⟩
  | exp u ih =>
      intro hb
      simp [hasBadPower] at hb
      obtain ⟨du, hdu, hbu⟩ := ih hb
      exact ⟨.mul (.exp u) du, by simp [derivative, hdu],
             by simp [hasBadPower, hbu, hb]⟩
  | log u ih =>
      intro hb
      simp [hasBadPower] at hb
      obtain ⟨du, hdu, hbu⟩ := ih hb
      exact ⟨.div du u, by simp [derivative, hdu],
             by simp [hasBadPower, hbu, hb]⟩
  | neg u ih =>
      intro hb
      simp [hasBadPower] at hb
      obtain ⟨du, hdu, hbu⟩ := ih hb
      exact ⟨.neg du, by simp [derivative, hdu],
             by simp [hasBadPower, hbu]⟩

/-- Differentiation of any tree containing a bad `POWER` node fails, with
exactly the non-constant-exponent error message. -/
theorem derivative_err_of_hasBadPower (ops : ScalarOps T) (t : String) :
    ∀ n : Node T, hasBadPower n = true →
      derivative ops t n =
        .error "Derivative of non-constant exponents not implemented" := by
  intro n
  induction n with
  | const v => intro hb; simp [hasBadPower] at hb
  | var w => intro hb; simp [hasBadPower] at hb
  | add l r ihl ihr =>
      intro hb
      by_cases h1 : hasBadPower l = true
      · simp [derivative, ihl h1]
      · have h1f : hasBadPower l = false := by simpa using h1
        simp [hasBadPower, h1f] at hb
        obtain ⟨dl, hdl, _⟩ := derivative_ok_of_hasBadPower_false ops t l h1f
        simp [derivative, hdl, ihr hb]
  | sub l r ihl ihr =>
      intro hb
      by_cases h1 : hasBadPower l = true
      · simp [derivative, ihl h1]
      · have h1f : hasBadPower l = false := by simpa using h1
        simp [hasBadPower, h1f] at hb
        obtain ⟨dl, hdl, _⟩ := derivative_ok_of_hasBadPower_false ops t l h1f
        simp [derivative, hdl, ihr hb]
  | mul l r ihl ihr =>
      intro hb
      by_cases h1 : hasBadPower l = true
      · simp [derivative, ihl h1]
      · have h1f : hasBadPower l = false := by simpa using h1
        simp [hasBadPower, h1f] at hb
        obtain ⟨dl, hdl, _⟩ := derivative_ok_of_hasBadPower_false ops t l h1f
        simp [derivative, hdl, ihr hb]
  | div l r ihl ihr =>
      intro hb
      by_cases h1 : hasBadPower l = true
      · simp [derivative, ihl h1]
      · have h1f : hasBadPower l = false := by simpa using h1
        simp [hasBadPower, h1f] at hb
        obtain ⟨dl, hdl, _⟩ := derivative_ok_of_hasBadPower_false ops t l h1f
        simp [derivative, hdl, ihr hb]
  | pow l r ihl ihr =>
      intro hb
      by_cases hcv : containsVar r = true
      · have hc : isConstant r = false := by
          rw [isConstant_eq_not_containsVar, hcv]; rfl
        simp [derivative, hc]
      · have hcvf : containsVar r = false := by simpa using hcv
        have hc : isConstant r = true := by
          rw [isConstant_eq_not_containsVar, hcvf]; rfl
        have hbr : hasBadPower r = false := hasBadPower_of_containsVar_false r hcvf
        simp [hasBadPower, hcvf, hbr] at hb
        obtain ⟨x, hx⟩ := eval_ok_of_not_unbound ops (fun _ => none) r
          (hasUnbound_of_containsVar_false _ r hcvf)
        simp [derivative, hc, hx, ihl hb]
  | sin u ih =>
      intro hb
      simp [hasBadPower] at hb
      simp [derivative, ih hb]
  | cos u ih =>
      intro hb
      simp [hasBadPower] at hb
      simp [derivative, ih hb]
  | exp u ih =>
      intro hb
      simp [hasBadPower] at hb
      simp [derivative, ih hb]
  | log u ih =>
      intro hb
      simp [hasBadPower] at hb
      simp [derivative, ih hb]
  | neg u ih =>
      intro hb
      simp [hasBadPower] at hb
      simp [derivative, ih hb]

/-- One child step of the heap-level substitution never removes cells,
provided the recursive call does not. -/
theorem substChild_mono (recur : List (Cell T) → Nat → Option (List (Cell T) × Nat))
    (hm : ∀ h l h1 a, recur h l = some (h1, a) → h.length ≤ h1.length)
    (h : List (Cell T)) (co : Option Nat) (h1 : List (Cell T)) (nl : Option Nat)
    (hres : substChild recur h co = some (h1, nl)) : h.length ≤ h1.length := by
  cases co with
  | none =>
    simp [substChild] at hres
    exact le_of_eq (congrArg List.length hres.1)
  | some l =>
    simp only [substChild] at hres
    cases hrec : recur h l with
    | none => rw [hrec] at hres; simp at hres
    | some p =>
      rw [hrec] at hres
      simp at hres
      have := hm h l p.1 p.2 (by rw [hrec])
      exact le_trans this (le_of_eq (congrArg List.length hres.1))

/-- A non-null child comes back from the heap-level substitution with a
non-null new child pointer: `substitute` always returns a tree. -/
theorem substChild_some (recur : List (Cell T) → Nat → Option (List (Cell T) × Nat))
    (h : List (Cell T)) (l : Nat) (h1 : List (Cell T)) (nl : Option Nat)
    (hres : substChild recur h (some l) = some (h1, nl)) : nl ≠ none := by
  simp only [substChild] at hres
  cases hrec : recur h l with
  | none => rw [hrec] at hres; simp at hres
  | some p =>
    rw [hrec] at hres
    simp at hres
    intro hnl
    rw [hnl] at hres
    exact Option.noConfusion hres.2

/-- The heap-level substitution never removes cells: the arena only grows
(`make_shared` appends, every other path leaves it untouched). -/
theorem substituteH_mono (v : String) (r : Nat) :
    ∀ (fuel : Nat) (h : List (Cell T)) (addr : Nat) (h2 : List (Cell T)) (a2 : Nat),
      substituteH v r fuel h addr = some (h2, a2) → h.length ≤ h2.length := by
  intro fuel
  induction fuel with
  | zero => intro h addr h2 a2 hres; simp [substituteH] at hres
  | succ fuel ih =>
    intro h addr h2 a2 hres
    simp only [substituteH] at hres
    split at hres
    · exact absurd hres (by simp)
    · rename_i c hc
      split at hres
      · simp at hres
        exact le_of_eq (congrArg List.length hres.1)
      · split at hres
        · exact absurd hres (by simp)
        · rename_i h1 nl hl
          split at hres
          · exact absurd hres (by simp)
          · rename_i hh2 nr hr
            have m1 := substChild_mono (substituteH v r fuel)
              (fun a b c d => ih a b c d) h c.left h1 nl hl
            have m2 := substChild_mono (substituteH v r fuel)
              (fun a b c d => ih a b c d) h1 c.right hh2 nr hr
            split at hres
            · simp at hres
              exact le_trans m1 (le_trans m2 (le_of_eq (congrArg List.length hres.1)))
            · simp at hres
              have := congrArg List.length hres.1
              simp at this
              omega

/-- Substituting `r` for `v` multiplies the number of occurrences of `v`:
each `VARIABLE v` leaf of the original is replaced by `r` verbatim (with
its own occurrences of `v` left unsubstituted), and no other leaf
contributes one. -/
theorem countVar_substitute (v : String) (r : Node T) :
    ∀ n : Node T, countVar v (substitute v r n) = countVar v n * countVar v r := by
  intro n
  induction n with
  | const c => simp [substitute, countVar]
  | var w =>
      by_cases hw : w == v
      · simp [substitute, countVar, hw]
      · simp [substitute, countVar, hw]
  | add l r2 ihl ihr => simp [substitute, countVar, ihl, ihr, Nat.add_mul]
  | sub l r2 ihl ihr => simp [substitute, countVar, ihl, ihr, Nat.add_mul]
  | mul l r2 ihl ihr => simp [substitute, countVar, ihl, ihr, Nat.add_mul]
  | div l r2 ihl ihr => simp [substitute, countVar, ihl, ihr, Nat.add_mul]
  | pow l r2 ihl ihr => simp [substitute, countVar, ihl, ihr, Nat.add_mul]
  | sin u ih => simp [substitute, countVar, ih]
  | cos u ih => simp [substitute, countVar, ih]
  | exp u ih => simp [substitute, countVar, ih]
  | log u ih => simp [substitute, countVar, ih]
  | neg u ih => simp [substitute, countVar, ih]

/-! Claim theorems. -/

/-- C1.  Product rule: whenever the derivatives of `u` and `v` with respect
to `t` are `du` and `dv`, differentiating `Multiply(u, v)` succeeds and the
resulting tree evaluates, at every binding, to the same value as the tree
`du*v + u*dv` (the code returns exactly that tree, so the evaluations agree
even under floating-point semantics); and the hypotheses are satisfiable
for arbitrary polynomial `u`, `v` built from constants, variables, `+`,
`-`, `*`, because differentiation always succeeds on polynomial trees. -/
theorem derivative_mul_product_rule (ops : ScalarOps T) (t : String) :
    (∀ u v du dv : Node T,
      derivative ops t u = .ok du → derivative ops t v = .ok dv →
      ∃ d, derivative ops t (Node.mul u v) = .ok d ∧
        ∀ env : String → Option T,
          evaluate ops env d =
            evaluate ops env (Node.add (Node.mul du v) (Node.mul u dv))) ∧
    (∀ u : Node T, isPoly u = true → ∃ du, derivative ops t u = .ok du) := by
  constructor
  · intro u v du dv hu hv
    exact ⟨Node.add (Node.mul du v) (Node.mul u dv),
           by simp [derivative, hu, hv], fun env => rfl⟩
  · intro u hp
    obtain ⟨du, hdu, _⟩ := derivative_ok_of_hasBadPower_false ops t u
      (hasBadPower_of_isPoly u hp)
    exact ⟨du, hdu⟩

/-- Witness for the product rule, at the polynomials `u = x` and
`v = x + 1` over the integer scalar instance; both derivative hypotheses
are discharged by computation. -/
theorem derivative_mul_product_rule_witness :
    (∃ d, derivative intOps "x"
        (Node.mul (Node.var "x") (Node.add (Node.var "x") (Node.const 1))) = .ok d ∧
      ∀ env : String → Option Int,
        evaluate intOps env d =
          evaluate intOps env (Node.add
            (Node.mul (Node.const 1) (Node.add (Node.var "x") (Node.const 1)))
            (Node.mul (Node.var "x") (Node.add (Node.const 1) (Node.const 0))))) ∧
    (∃ du, derivative intOps "x" (Node.mul (Node.var "x") (Node.var "x")) = .ok du) :=
  ⟨(derivative_mul_product_rule intOps "x").1 _ _ _ _ rfl rfl,
   (derivative_mul_product_rule intOps "x").2 _ rfl⟩

/-- C2.  Power rule with constant exponent: differentiating
`Power(Variable "x", Constant n)` with respect to `"x"` succeeds, and the
result evaluates at the binding `x = a` to `n * a^(n-1)` (expressed with
the scalar instance's own operations).  The one scalar law needed is that
multiplying by the scalar one is the identity, which holds for the
instantiations `double` and `complex<double>`. -/
theorem derivative_pow_const_exponent (ops : ScalarOps T)
    (hmul : ∀ z, ops.mul z ops.one = z) (n a : T) :
    ∃ d, derivative ops "x" (Node.pow (Node.var "x") (Node.const n)) = .ok d ∧
      evaluate ops (fun s => if s = "x" then some a else none) d =
        .ok (ops.mul n (ops.pow a (ops.sub n ops.one))) := by
  refine ⟨Node.mul (Node.mul (Node.const n)
      (Node.pow (Node.var "x") (Node.const (ops.sub n ops.one))))
      (Node.const ops.one),
    by simp [derivative, isConstant, evaluate], ?_⟩
  simp [evaluate, hmul]

/-- Witness for the power rule: exponent 5 at the point `x = 3` over the
integer scalar instance. -/
theorem derivative_pow_const_exponent_witness :
    ∃ d, derivative intOps "x" (Node.pow (Node.var "x") (Node.const 5)) = .ok d ∧
      evaluate intOps (fun s => if s = "x" then some 3 else none) d =
        .ok (intOps.mul 5 (intOps.pow 3 (intOps.sub 5 1))) :=
  derivative_pow_const_exponent intOps (fun z => Int.mul_one z) 5 3

/-- C3.  Unsupported-differentiation error: differentiation fails with the
non-constant-exponent error exactly when the tree contains a `POWER` node
whose exponent subtree contains a variable leaf, and on every tree with no
such node it returns a tree. -/
theorem derivative_error_iff_bad_power (ops : ScalarOps T) (t : String)
    (n : Node T) :
    (derivative ops t n =
        .error "Derivative of non-constant exponents not implemented" ↔
      hasBadPower n = true) ∧
    (hasBadPower n = false → ∃ d, derivative ops t n = .ok d) := by
  constructor
  · constructor
    · intro he
      by_contra hb
      have hbf : hasBadPower n = false := by simpa using hb
      obtain ⟨d, hd, _⟩ := derivative_ok_of_hasBadPower_false ops t n hbf
      rw [hd] at he
      exact Except.noConfusion he
    · exact derivative_err_of_hasBadPower ops t n
  · intro hbf
    obtain ⟨d, hd, _⟩ := derivative_ok_of_hasBadPower_false ops t n hbf
    exact ⟨d, hd⟩

/-- Witness for the unsupported-differentiation error: `Power(x, y)` fails
w.r.t. `"x"`, while `x + Power(x, 2)` differentiates successfully. -/
theorem derivative_error_iff_bad_power_witness :
    derivative intOps "x" (Node.pow (Node.var "x") (Node.var "y")) =
      .error "Derivative of non-constant exponents not implemented" ∧
    ∃ d, derivative intOps "x"
        (Node.add (Node.var "x") (Node.pow (Node.var "x") (Node.const 2))) = .ok d :=
  ⟨(derivative_error_iff_bad_power intOps "x"
      (Node.pow (Node.var "x") (Node.var "y"))).1.mpr rfl,
   (derivative_error_iff_bad_power intOps "x"
      (Node.add (Node.var "x") (Node.pow (Node.var "x") (Node.const 2)))).2 rfl⟩

/-- C4.  Unbound-variable error: evaluation fails with the
undefined-variable error (naming an unbound variable) exactly when some
variable leaf of the tree is absent from the bindings; in particular
`Variable v` evaluates to exactly `x` under `{v: x}` and fails when `v` is
unbound. -/
theorem evaluate_error_iff_unbound (ops : ScalarOps T)
    (env : String → Option T) (n : Node T) :
    (hasUnbound env n = true →
      ∃ w, env w = none ∧
        evaluate ops env n = .error ("Undefined variable: " ++ w)) ∧
    (hasUnbound env n = false → ∃ x, evaluate ops env n = .ok x) ∧
    (∀ (v : String) (x : T),
      evaluate ops (fun s => if s = v then some x else none) (Node.var v) = .ok x) ∧
    (∀ v : String, env v = none →
      evaluate ops env (Node.var v) = .error ("Undefined variable: " ++ v)) := by
  refine ⟨eval_err_of_unbound ops env n, eval_ok_of_not_unbound ops env n, ?_, ?_⟩
  · intro v x; simp [evaluate]
  · intro v hv; simp [evaluate, hv]

/-- Witness for the unbound-variable error, at `Variable "v"` with the
empty bindings (failure) and with the binding `{v: 7}` (success with
exactly 7). -/
theorem evaluate_error_iff_unbound_witness :
    (∃ w, (fun _ : String => (none : Option Int)) w = none ∧
      evaluate intOps (fun _ => none) (Node.var "v") =
        .error ("Undefined variable: " ++ w)) ∧
    evaluate intOps (fun s => if s = "v" then some (7 : Int) else none)
        (Node.var "v") = .ok 7 ∧
    evaluate intOps (fun _ => none) (Node.var "v") =
      .error ("Undefined variable: " ++ "v") :=
  ⟨(evaluate_error_iff_unbound intOps (fun _ => none) (Node.var "v")).1 rfl,
   (evaluate_error_iff_unbound intOps (fun _ => none) (Node.var "v")).2.2.1 "v" 7,
   (evaluate_error_iff_unbound intOps (fun _ => none) (Node.var "v")).2.2.2 "v" rfl⟩

/-- C5.  Substitution correctness at a matching variable leaf: substituting
`E` for `v` in the tree `Variable v` yields a tree that evaluates, under
every binding and for every scalar instance, exactly as `E` does (the code
returns `E`'s root itself). -/
theorem substitute_var_evaluate (ops : ScalarOps T) (v : String) (E : Node T)
    (env : String → Option T) :
    evaluate ops env (substitute v E (Node.var v)) = evaluate ops env E := by
  simp [substitute]

/-- C6.  Derivatives compose: on a tree with no `POWER` node with a
non-constant exponent, differentiation succeeds and its result again has
no such `POWER` node, hence can itself be differentiated with respect to
any variable (the unsupported-differentiation failure is never introduced
by differentiation itself). -/
theorem derivative_composes (ops : ScalarOps T) (t : String) (n : Node T)
    (h : hasBadPower n = false) :
    ∃ d, derivative ops t n = .ok d ∧ hasBadPower d = false ∧
      ∀ v2 : String, ∃ d2, derivative ops v2 d = .ok d2 := by
  obtain ⟨d, hd, hbd⟩ := derivative_ok_of_hasBadPower_false ops t n h
  refine ⟨d, hd, hbd, fun v2 => ?_⟩
  obtain ⟨d2, hd2, _⟩ := derivative_ok_of_hasBadPower_false ops v2 d hbd
  exact ⟨d2, hd2⟩

/-- Witness for composition of derivatives, at `Power(x, 2) + sin(x)` over
the integer scalar instance. -/
theorem derivative_composes_witness :
    ∃ d, derivative intOps "x"
        (Node.add (Node.pow (Node.var "x") (Node.const 2))
                  (Node.sin (Node.var "x"))) = .ok d ∧
      hasBadPower d = false ∧
      ∀ v2 : String, ∃ d2, derivative intOps v2 d = .ok d2 :=
  derivative_composes intOps "x" _ rfl

/-- C7 counterexample.  The claim says an interior node neither of whose
children changed is returned unchanged by `substitute`, as the identical
shared node.  Substituting for `"x"` (absent from the tree) in
`Add(Constant 1, Constant 2)` — the arena `shareHeap`, root address 2 —
refutes it: neither child changes (both come back at their original
addresses 0 and 1), yet the code allocates a fresh `ADD` cell at the new
address 4 instead of returning address 2, because
`if (!newLeft && !newRight) return *this` only fires when both child
pointers are null, which for an interior node they never are. -/
theorem substitute_realloc_counterexample :
    substituteH (T := Int) "x" 3 5 shareHeap 2 =
      some (shareHeap ++ [⟨NType.ADD, none, "", some 0, some 1⟩], 4) ∧
    (4 : Nat) ≠ 2 :=
  ⟨rfl, by decide⟩

/-- C7 amended.  Sharing behaviour of `substitute`, as the code actually
has it: a matching `VARIABLE` leaf returns the replacement's own root
(shared, arena untouched); any other leaf — a `CONSTANT`, or a `VARIABLE`
with a different name — is returned as the identical original node (same
address, arena untouched); but an interior node (one with at least one
child) is always freshly allocated, even when no child changed: its result
address is outside the original arena, in particular different from its
own address. -/
theorem substitute_sharing_amended (v : String) (r fuel addr : Nat)
    (h : List (Cell T)) (c : Cell T) (hget : h.get? addr = some c) :
    (c.ty = NType.VARIABLE → c.vname = v →
      substituteH v r (fuel + 1) h addr = some (h, r)) ∧
    (¬(c.ty = NType.VARIABLE ∧ c.vname = v) → c.left = none → c.right = none →
      substituteH v r (fuel + 1) h addr = some (h, addr)) ∧
    (∀ (h2 : List (Cell T)) (a2 : Nat),
      ¬(c.ty = NType.VARIABLE ∧ c.vname = v) →
      (c.left ≠ none ∨ c.right ≠ none) → addr < h.length →
      substituteH v r (fuel + 1) h addr = some (h2, a2) →
      h.length ≤ a2 ∧ a2 ≠ addr) := by
  have hget2 : h[addr]? = some c := by simpa using hget
  refine ⟨?_, ?_, ?_⟩
  · intro hty hname
    simp [substituteH, hget2, hty, hname]
  · intro hnv hl hr
    simp [substituteH, hget2, hnv, hl, hr, substChild]
  · intro h2 a2 hnv hchild hlt hres
    simp only [substituteH, hget, hnv, if_false, ite_false] at hres
    split at hres
    · exact absurd hres (by simp)
    · rename_i h1 nl hl
      split at hres
      · exact absurd hres (by simp)
      · rename_i hh2 nr hr
        have m1 := substChild_mono (substituteH v r fuel)
          (fun a b c2 d => substituteH_mono v r fuel a b c2 d) h c.left h1 nl hl
        have m2 := substChild_mono (substituteH v r fuel)
          (fun a b c2 d => substituteH_mono v r fuel a b c2 d) h1 c.right hh2 nr hr
        have hcond : ¬(nl = none ∧ nr = none) := by
          rcases hchild with hc1 | hc2
          · cases hcl : c.left with
            | none => exact absurd hcl hc1
            | some l =>
                rw [hcl] at hl
                have := substChild_some (substituteH v r fuel) h l h1 nl hl
                exact fun hcc => this hcc.1
          · cases hcr : c.right with
            | none => exact absurd hcr hc2
            | some l =>
                rw [hcr] at hr
                have := substChild_some (substituteH v r fuel) h1 l hh2 nr hr
                exact fun hcc => this hcc.2
        rw [if_neg hcond] at hres
        simp at hres
        obtain ⟨hh, ha⟩ := hres
        have hlen : h.length ≤ hh2.length := le_trans m1 m2
        constructor
        · omega
        · omega

/-- Witness for the amended sharing theorem: over `shareHeap`, the constant
leaf at address 0 is returned as itself with the arena untouched, and the
interior `ADD` node at address 2 comes back at the fresh address 4. -/
theorem substitute_sharing_amended_witness :
    substituteH (T := Int) "x" 3 5 shareHeap 0 = some (shareHeap, 0) ∧
    (shareHeap.length ≤ 4 ∧ (4 : Nat) ≠ 2) :=
  ⟨(substitute_sharing_amended "x" 3 4 0 shareHeap
      ⟨NType.CONSTANT, some 1, "", none, none⟩ rfl).2.1 (by decide) rfl rfl,
   (substitute_sharing_amended "x" 3 4 2 shareHeap
      ⟨NType.ADD, none, "", some 0, some 1⟩ rfl).2.2
      (shareHeap ++ [(⟨NType.ADD, none, "", some 0, some 1⟩ : Cell Int)]) 4
      (by decide) (Or.inl (by decide)) (by decide) (by rfl)⟩

/-- C8.  Rendering: `toString` is the fully parenthesized structural print
— a constant renders through the scalar's textual form, a variable as its
name, each binary arithmetic kind as `(left OP right)`, `POWER` as
`pow(left, right)`, each unary transcendental kind as `fname(operand)`,
`NEGATE` as `-(operand)`; and concretely
`toString (Add (Constant 1) (Variable "x")) = "(1 + x)"`. -/
theorem toString_shape :
    (∀ (S : Type) (ops : ScalarOps S) (c : S),
      toString ops (Node.const c) = ops.tostr c) ∧
    (∀ (S : Type) (ops : ScalarOps S) (w : String),
      toString ops (Node.var w) = w) ∧
    (∀ (S : Type) (ops : ScalarOps S) (l r : Node S),
      toString ops (Node.add l r) =
        "(" ++ toString ops l ++ " + " ++ toString ops r ++ ")") ∧
    (∀ (S : Type) (ops : ScalarOps S) (l r : Node S),
      toString ops (Node.sub l r) =
        "(" ++ toString ops l ++ " - " ++ toString ops r ++ ")") ∧
    (∀ (S : Type) (ops : ScalarOps S) (l r : Node S),
      toString ops (Node.mul l r) =
        "(" ++ toString ops l ++ " * " ++ toString ops r ++ ")") ∧
    (∀ (S : Type) (ops : ScalarOps S) (l r : Node S),
      toString ops (Node.div l r) =
        "(" ++ toString ops l ++ " / " ++ toString ops r ++ ")") ∧
    (∀ (S : Type) (ops : ScalarOps S) (l r : Node S),
      toString ops (Node.pow l r) =
        "pow(" ++ toString ops l ++ ", " ++ toString ops r ++ ")") ∧
    (∀ (S : Type) (ops : ScalarOps S) (u : Node S),
      toString ops (Node.sin u) = "sin(" ++ toString ops u ++ ")") ∧
    (∀ (S : Type) (ops : ScalarOps S) (u : Node S),
      toString ops (Node.cos u) = "cos(" ++ toString ops u ++ ")") ∧
    (∀ (S : Type) (ops : ScalarOps S) (u : Node S),
      toString ops (Node.exp u) = "exp(" ++ toString ops u ++ ")") ∧
    (∀ (S : Type) (ops : ScalarOps S) (u : Node S),
      toString ops (Node.log u) = "log(" ++ toString ops u ++ ")") ∧
    (∀ (S : Type) (ops : ScalarOps S) (u : Node S),
      toString ops (Node.neg u) = "-(" ++ toString ops u ++ ")") ∧
    toString intOps (Node.add (Node.const 1) (Node.var "x")) = "(1 + x)" :=
  ⟨fun _S _ops _c => rfl, fun _S _ops _w => rfl, fun _S _ops _l _r => rfl,
   fun _S2 _ops2 _l2 _r2 => rfl, fun _S3 _ops3 _l3 _r3 => rfl,
   fun _S4 _ops4 _l4 _r4 => rfl, fun _S5 _ops5 _l5 _r5 => rfl,
   fun _S6 _ops6 _u => rfl, fun _S7 _ops7 _u7 => rfl,
   fun _S8 _ops8 _u8 => rfl, fun _S9 _ops9 _u9 => rfl,
   fun _S10 _ops10 _u10 => rfl, rfl⟩

/-- C9.  Constant evaluation: a `Constant a` leaf evaluates to exactly `a`
under every binding map; the default-constructed expression is the constant
zero and evaluates to zero under every binding map; and every constant-only
tree evaluates successfully under every binding map (including the empty
one), to a value independent of the bindings. -/
theorem evaluate_const_trees (ops : ScalarOps T) :
    (∀ (a : T) (env : String → Option T),
      evaluate ops env (Node.const a) = .ok a) ∧
    (∀ env : String → Option T,
      evaluate ops env (defaultExpr ops) = .ok ops.zero) ∧
    (∀ n : Node T, isConstant n = true →
      ∃ x, ∀ env : String → Option T, evaluate ops env n = .ok x) := by
  refine ⟨fun a env => rfl, fun env => rfl, fun n hc => ?_⟩
  have hcv : containsVar n = false := by
    rw [isConstant_eq_not_containsVar] at hc
    simpa using hc
  obtain ⟨x, hx⟩ := eval_ok_of_not_unbound ops (fun _ => none) n
    (hasUnbound_of_containsVar_false _ n hcv)
  exact ⟨x, fun env => (eval_env_irrelevant ops env (fun _ => none) n hcv).trans hx⟩

/-- Witness for constant evaluation: a constant-only composite tree over
the integer scalar instance evaluates, at every binding, to one fixed
value. -/
theorem evaluate_const_trees_witness :
    ∃ x, ∀ env : String → Option Int,
      evaluate intOps env (Node.mul (Node.add (Node.const 2) (Node.const 3))
        (Node.const 4)) = .ok x :=
  (evaluate_const_trees intOps).2.2 _ rfl

/-- C10.  Substitution is single-pass and never recurses into the
replacement: occurrences of `v` in the result are exactly the occurrences
of `v` inside the copies of `r` planted at the `Variable v` leaves of `n`
(so their number is the product of the two counts, and `r` is inserted
as-is even when it contains `v` itself — the matching-leaf case returns
`r` verbatim); concretely, substituting `y + 1` for `y` in `y * y` gives
`(y + 1) * (y + 1)`, not an unfolding.  Totality of `substitute` on every
finite tree is inherent in its structural recursion on `n` alone. -/
theorem substitute_single_pass :
    (∀ (S : Type) (v : String) (r n : Node S),
      countVar v (substitute v r n) = countVar v n * countVar v r) ∧
    (∀ (S : Type) (v : String) (r : Node S), substitute v r (Node.var v) = r) ∧
    substitute "y" (Node.add (Node.var "y") (Node.const (1 : Int)))
        (Node.mul (Node.var "y") (Node.var "y")) =
      Node.mul (Node.add (Node.var "y") (Node.const 1))
               (Node.add (Node.var "y") (Node.const 1)) := by
  refine ⟨?_, ?_, rfl⟩
  · intro S v r n
    exact countVar_substitute v r n
  · intro S v r
    simp [substitute]

end Expression

